import Mathlib

/-!
Verification of the Screvi Obsidian plugin's highlight-ingestion and
template-rendering core.  Each definition is a shallow embedding of a
function from `src/main.ts` or `src/src/api/client.ts`; doc comments name
the source symbol being modelled.  Strings are modelled as Lean `String`
(with list-of-char scanners mirroring the JavaScript regex replacements),
and JavaScript `undefined` is modelled with `Option`.
-/

/-- JavaScript-style context value for template data: a string, an object
(a field list in insertion order, keys unique), or `undefined`.  Arrays
and numbers in contexts are not modelled: the auto-link logic in
`renderTemplate` only ever rewrites string-valued fields. -/
inductive CtxVal where
  | nil : CtxVal
  | str : String → CtxVal
  | obj : List (String × CtxVal) → CtxVal
deriving Repr

/-- JavaScript `a || b` for an optional string `a` and a default string `b`:
`undefined` and the empty string are falsy. -/
def jsOrS (a : Option String) (b : String) : String :=
  match a with
  | none => b
  | some s => if s = "" then b else s

/-- JavaScript `a || b` when both operands are optional strings. -/
def jsOrOpt (a b : Option String) : Option String :=
  match a with
  | none => b
  | some s => if s = "" then b else some s

/-- JavaScript `a || b` for plain strings (empty string is falsy). -/
def jsOrStr (a b : String) : String :=
  if a = "" then b else a

/-- The `ScreviHighlight` record as constructed by
`fetchHighlightsSince` in `src/src/api/client.ts` (lines 125-145):
`content`, `title` and `date` are always strings there, the remaining
fields may be `undefined`. -/
structure Highlight where
  id : Option String
  content : String
  note : Option String
  source : Option String
  sourceType : Option String
  title : String
  author : Option String
  url : Option String
  date : String
  created_at : Option String
  updated_at : Option String
  tags : Option (List String)
  chapter : Option String
  page : Option Nat
  location : Option String
  color : Option String
  book_id : Option String
  metadata : Option CtxVal
deriving Repr

/-- The composite deduplication key
`` `${h.content || ''}_${h.created_at || h.date || ''}` `` used in
`deduplicateHighlights` and `syncHighlights` (`src/main.ts` lines 206, 338). -/
def highlightKey (h : Highlight) : String :=
  jsOrStr h.content "" ++ "_" ++ jsOrStr (jsOrS h.created_at h.date) ""

/-- The filter loop of `deduplicateHighlights` (`src/main.ts` lines 334-345):
`seen` is the set of keys already encountered (a JS `Set`, modelled as a
list of keys). -/
def dedupGo : List Highlight → List String → List Highlight
  | [], _ => []
  | h :: t, seen =>
      if seen.contains (highlightKey h) then dedupGo t seen
      else h :: dedupGo t (highlightKey h :: seen)

/-- `deduplicateHighlights` (`src/main.ts` lines 334-345). -/
def deduplicateHighlights (hs : List Highlight) : List Highlight :=
  dedupGo hs []

/-- Modelled from the spec's words (refinement comparison for the dedupe
contract): keep a highlight exactly when no earlier highlight in the
sequence (`pre` is the list of earlier ones) has the same composite key;
first occurrence wins. -/
def firstOccurrenceWins (pre : List Highlight) : List Highlight → List Highlight
  | [] => []
  | h :: t =>
      if pre.all (fun g => highlightKey g != highlightKey h) then
        h :: firstOccurrenceWins (pre ++ [h]) t
      else
        firstOccurrenceWins (pre ++ [h]) t

/-- Boolean prefix test on character lists (scanner primitive for the
JavaScript regex/string replacements below). -/
def isPrefixL : List Char → List Char → Bool
  | [], _ => true
  | _ :: _, [] => false
  | a :: as, b :: bs => a == b && isPrefixL as bs

/-- Boolean infix (substring) test on character lists. -/
def isInfixL (p : List Char) : List Char → Bool
  | [] => p.isEmpty
  | c :: t => isPrefixL p (c :: t) || isInfixL p t

/-- One left-to-right non-overlapping global replacement pass, the
semantics of JavaScript `str.replace(/pat/g, rep)` for a literal pattern.
`fuel` bounds the recursion; it is instantiated with the input length,
which always suffices since every step consumes at least one character. -/
def replaceAllGo (pat rep : List Char) : Nat → List Char → List Char
  | _, [] => []
  | 0, l => l
  | fuel + 1, c :: t =>
      if isPrefixL pat (c :: t) then rep ++ replaceAllGo pat rep fuel (t.drop (pat.length - 1))
      else c :: replaceAllGo pat rep fuel t

/-- JavaScript `str.replace(/pat/g, rep)` for a literal nonempty pattern. -/
def replaceAllL (pat rep l : List Char) : List Char :=
  replaceAllGo pat rep l.length l

/-- The named-entity table of `decodeHtmlEntities` (`src/main.ts` lines
516-531), in source order. -/
def entityTable : List (String × String) :=
  [("&amp;", "&"), ("&lt;", "<"), ("&gt;", ">"), ("&quot;", "\""),
   ("&#39;", "'"), ("&apos;", "'"), ("&nbsp;", " "), ("&ndash;", "–"),
   ("&mdash;", "—"), ("&hellip;", "…"), ("&lsquo;", "‘"),
   ("&rsquo;", "’"), ("&ldquo;", "“"), ("&rdquo;", "”")]

/-- The JSON escape-sequence pass of `decodeHtmlEntities` (`src/main.ts`
lines 536-541): `\n`, `\t`, `\r`, `\"`, `\\` in that order. -/
def jsonUnescape (l : List Char) : List Char :=
  replaceAllL ['\\', '\\'] ['\\']
    (replaceAllL ['\\', '"'] ['"']
      (replaceAllL ['\\', 'r'] ['\r']
        (replaceAllL ['\\', 't'] ['\t']
          (replaceAllL ['\\', 'n'] ['\n'] l))))

/-- Decimal digit-string to number, the effect of `parseInt(num, 10)`
(exact for the sizes at which JavaScript numbers are exact). -/
def digitsToNat (ds : List Char) : Nat :=
  ds.foldl (fun a c => a * 10 + (c.toNat - 48)) 0

/-- Hex digit value for `[0-9a-fA-F]`. -/
def hexVal (c : Char) : Nat :=
  if c.isDigit then c.toNat - 48
  else if 97 ≤ c.toNat ∧ c.toNat ≤ 102 then c.toNat - 87
  else c.toNat - 55

/-- Hex digit test matching the regex class `[0-9a-fA-F]`. -/
def isHexDigitB (c : Char) : Bool :=
  c.isDigit || decide (97 ≤ c.toNat ∧ c.toNat ≤ 102) ||
    decide (65 ≤ c.toNat ∧ c.toNat ≤ 70)

/-- Hex digit-string to number (`parseInt(hex, 16)`). -/
def hexDigitsToNat (ds : List Char) : Nat :=
  ds.foldl (fun a c => a * 16 + hexVal c) 0

/-- JavaScript `String.fromCharCode`: the code is reduced modulo 2^16.
(For codes in the surrogate range JavaScript produces a lone UTF-16
surrogate, which Lean's `Char.ofNat` maps to the null character instead;
no theorem below depends on that range.) -/
def fromCharCode (n : Nat) : Char :=
  Char.ofNat (n % 65536)

/-- Attempt to match the regex `&#(\d+);` at the head of the list,
returning the code and the remainder after the `;` on success.  Maximal
munch of `\d+` followed by a `;` check is exact for this regex. -/
def matchDecEntity : List Char → Option (Nat × List Char)
  | '&' :: '#' :: rest =>
      let ds := rest.takeWhile Char.isDigit
      match rest.dropWhile Char.isDigit with
      | ';' :: after => if ds.isEmpty then none else some (digitsToNat ds, after)
      | _ => none
  | _ => none

/-- Attempt to match the regex `&#x([0-9a-fA-F]+);` at the head of the list. -/
def matchHexEntity : List Char → Option (Nat × List Char)
  | '&' :: '#' :: 'x' :: rest =>
      let ds := rest.takeWhile isHexDigitB
      match rest.dropWhile isHexDigitB with
      | ';' :: after => if ds.isEmpty then none else some (hexDigitsToNat ds, after)
      | _ => none
  | _ => none

/-- The decimal numeric-entity replacement pass (`src/main.ts` lines
549-551): scan left to right, replacing each match and continuing after
it, advancing one character on failure.  `fuel` is instantiated with the
input length, which suffices since every step consumes at least one
character. -/
def decodeDecGo : Nat → List Char → List Char
  | _, [] => []
  | 0, l => l
  | fuel + 1, c :: t =>
      match matchDecEntity (c :: t) with
      | some (n, after) => fromCharCode n :: decodeDecGo fuel after
      | none => c :: decodeDecGo fuel t

/-- The hex numeric-entity replacement pass (`src/main.ts` lines 554-556). -/
def decodeHexGo : Nat → List Char → List Char
  | _, [] => []
  | 0, l => l
  | fuel + 1, c :: t =>
      match matchHexEntity (c :: t) with
      | some (n, after) => fromCharCode n :: decodeHexGo fuel after
      | none => c :: decodeHexGo fuel t

/-- Whether the regex `&#(\d+);` matches anywhere in the list. -/
def hasDecEntity : List Char → Bool
  | [] => false
  | c :: t => (matchDecEntity (c :: t)).isSome || hasDecEntity t

/-- Whether the regex `&#x([0-9a-fA-F]+);` matches anywhere in the list. -/
def hasHexEntity : List Char → Bool
  | [] => false
  | c :: t => (matchHexEntity (c :: t)).isSome || hasHexEntity t

/-- `decodeHtmlEntities` (`src/main.ts` lines 512-559): JSON escapes,
then the named-entity table in order, then decimal entities, then hex
entities.  The copy in `src/src/api/client.ts` (lines 39-88) differs only
by an `includes` guard before each named-entity replacement, which does
not change the result. -/
def decodeHtmlEntities (text : String) : String :=
  if text = "" then text
  else
    let l1 := jsonUnescape text.data
    let l2 := entityTable.foldl (fun acc p => replaceAllL p.1.data p.2.data acc) l1
    let l3 := decodeDecGo l2.length l2
    let l4 := decodeHexGo l3.length l3
    String.mk l4

/-- No backslash-escape sequence and no named or numeric HTML-entity
pattern occurs in `s` (the claim C5 hypothesis "already-clean text"). -/
def cleanText (s : String) : Bool :=
  (([(['\\', 'n'] : List Char), ['\\', 't'], ['\\', 'r'], ['\\', '"'], ['\\', '\\']]).all
      fun p => !(isInfixL p s.data)) &&
    (entityTable.all fun p => !(isInfixL p.1.data s.data)) &&
    !(hasDecEntity s.data) && !(hasHexEntity s.data)

/-- JavaScript whitespace class `\s` restricted to ASCII (the inputs in
this code base are ASCII-spaced; Unicode spaces are not modelled). -/
def isJsWs (c : Char) : Bool :=
  c == ' ' || c == '\t' || c == '\n' || c == '\r' || c == '\x0b' || c == '\x0c'

/-- JavaScript `String.prototype.trim` on character lists. -/
def trimChars (l : List Char) : List Char :=
  ((l.dropWhile isJsWs).reverse.dropWhile isJsWs).reverse

/-- JavaScript `String.prototype.trim`. -/
def jsTrim (s : String) : String :=
  String.mk (trimChars s.data)

/-- JavaScript `str.split(sep)` for a single-character literal separator. -/
def splitOnSep (sep : Char) : List Char → List (List Char)
  | [] => [[]]
  | c :: t =>
      if c = sep then [] :: splitOnSep sep t
      else
        match splitOnSep sep t with
        | [] => [[c]]
        | p :: ps => (c :: p) :: ps

/-- JavaScript `parts.join(sep)` for a single-character separator. -/
def joinSep (sep : Char) : List (List Char) → List Char
  | [] => []
  | [l] => l
  | l :: ls => l ++ sep :: joinSep sep ls

/-- The per-line mapping shared by `formatAsBlockquote` and the
`blockquote` filter (`src/main.ts` lines 432-435 and 565-568):
`line.trim() ? '> ' + line : '>'`. -/
def bqLine (line : List Char) : List Char :=
  if trimChars line = [] then ['>'] else '>' :: ' ' :: line

/-- `formatAsBlockquote` (`src/main.ts` lines 561-569). -/
def formatAsBlockquote (text : String) : String :=
  if trimChars text.data = [] then text
  else String.mk (joinSep '\n' ((splitOnSep '\n' (trimChars text.data)).map bqLine))

/-- The `blockquote` Nunjucks filter (`src/main.ts` lines 427-440): guard
on the raw string, then decode entities, then blockquote the decoded
text.  (The `SafeString` wrapper only affects Nunjucks auto-escaping,
not the text.) -/
def blockquoteFilter (s : String) : String :=
  if trimChars s.data = [] then s
  else
    String.mk
      (joinSep '\n'
        ((splitOnSep '\n' (trimChars (decodeHtmlEntities s).data)).map bqLine))

/-- The 26 ASCII uppercase letters (regex `\w` is ASCII-only without the
`u` flag). -/
def upperChars : List Char :=
  ['A', 'B', 'C', 'D', 'E', 'F', 'G', 'H', 'I', 'J', 'K', 'L', 'M',
   'N', 'O', 'P', 'Q', 'R', 'S', 'T', 'U', 'V', 'W', 'X', 'Y', 'Z']

/-- The 26 ASCII lowercase letters. -/
def lowerChars : List Char :=
  ['a', 'b', 'c', 'd', 'e', 'f', 'g', 'h', 'i', 'j', 'k', 'l', 'm',
   'n', 'o', 'p', 'q', 'r', 's', 't', 'u', 'v', 'w', 'x', 'y', 'z']

/-- The ten ASCII digits. -/
def digitChars : List Char :=
  ['0', '1', '2', '3', '4', '5', '6', '7', '8', '9']

/-- Regex `\w`: `[A-Za-z0-9_]`. -/
def isWordCharB (c : Char) : Bool :=
  upperChars.contains c || lowerChars.contains c || digitChars.contains c || c == '_'

/-- The class kept by `sanitizeTagName`'s second replacement
(`/[^\w\-\/]/g` removes everything else). -/
def isKeepChar (c : Char) : Bool :=
  isWordCharB c || c == '-' || c == '/'

/-- `str.replace(/\s+/g, '-')`: each maximal whitespace run becomes one
hyphen. -/
def collapseWsToHyphen : List Char → List Char
  | [] => []
  | [c] => [if isJsWs c then '-' else c]
  | a :: b :: t =>
      if isJsWs a && isJsWs b then collapseWsToHyphen (b :: t)
      else (if isJsWs a then '-' else a) :: collapseWsToHyphen (b :: t)

/-- `str.replace(/\/+/g, '/')`: each maximal slash run becomes one slash. -/
def collapseSlashes : List Char → List Char
  | [] => []
  | [c] => [c]
  | a :: b :: t =>
      if a = '/' && b = '/' then collapseSlashes (b :: t)
      else a :: collapseSlashes (b :: t)

/-- The `^\/` half of `str.replace(/^\/|\/$/g, '')`: drop one leading
slash. -/
def dropLeadingSlash : List Char → List Char
  | [] => []
  | c :: t => if c = '/' then t else c :: t

/-- The `\/$` half of `str.replace(/^\/|\/$/g, '')`: drop one trailing
slash. -/
def dropTrailingSlash : List Char → List Char
  | [] => []
  | [c] => if c = '/' then [] else [c]
  | c :: t => c :: dropTrailingSlash t

/-- JavaScript `toLowerCase` on the ASCII range (only ASCII characters
survive the `\w`-based filter that precedes it in `sanitizeTagName`). -/
def jsToLower : Char → Char
  | 'A' => 'a' | 'B' => 'b' | 'C' => 'c' | 'D' => 'd' | 'E' => 'e'
  | 'F' => 'f' | 'G' => 'g' | 'H' => 'h' | 'I' => 'i' | 'J' => 'j'
  | 'K' => 'k' | 'L' => 'l' | 'M' => 'm' | 'N' => 'n' | 'O' => 'o'
  | 'P' => 'p' | 'Q' => 'q' | 'R' => 'r' | 'S' => 's' | 'T' => 't'
  | 'U' => 'u' | 'V' => 'v' | 'W' => 'w' | 'X' => 'x' | 'Y' => 'y'
  | 'Z' => 'z'
  | c => c

/-- `sanitizeTagName` (`src/main.ts` lines 573-582): whitespace runs to
hyphens, strip everything outside `[\w\-\/]`, collapse slash runs, trim
one leading and one trailing slash, lowercase. -/
def sanitizeTagName (tagName : String) : String :=
  String.mk
    ((dropTrailingSlash
        (dropLeadingSlash
          (collapseSlashes
            ((collapseWsToHyphen tagName.data).filter isKeepChar)))).map jsToLower)

/-- No two consecutive slashes. -/
def noDoubleSlash : List Char → Bool
  | a :: b :: t => !(a = '/' && b = '/') && noDoubleSlash (b :: t)
  | _ => true

/-- Characters allowed in a sanitized tag: lowercase ASCII word
characters (letters, digits, underscore), hyphen, forward slash. -/
def isAllowedTagChar (c : Char) : Bool :=
  lowerChars.contains c || digitChars.contains c || c == '_' || c == '-' || c == '/'

/-- The Windows-forbidden characters removed by `sanitizeFileName`. -/
def forbiddenFileChars : List Char :=
  ['<', '>', ':', '"', '|', '?', '*']

/-- `str.replace(/\.+$/g, '')`: strip the maximal trailing dot run. -/
def dropTrailingDots (l : List Char) : List Char :=
  (l.reverse.dropWhile (fun c => c == '.')).reverse

/-- `sanitizeFileName` (`src/main.ts` lines 377-385): remove Windows
forbidden characters, replace path separators with hyphens, strip
trailing dots, then trim whitespace — in that order. -/
def sanitizeFileName (name : String) : String :=
  String.mk
    (trimChars
      (dropTrailingDots
        ((name.data.filter fun c => !(forbiddenFileChars.contains c)).map
          fun c => if c == '/' || c == '\\' then '-' else c)))

/-- Field lookup in a JavaScript object (first match; keys are unique in
practice). -/
def lookupField : List (String × CtxVal) → String → Option CtxVal
  | [], _ => none
  | (k', v') :: t, k => if k' = k then some v' else lookupField t k

/-- JavaScript property assignment `obj[k] = v`: replace the first
occurrence of the key, or append the key at the end. -/
def setField : List (String × CtxVal) → String → CtxVal → List (String × CtxVal)
  | [], k, v => [(k, v)]
  | (k', v') :: t, k, v =>
      if k' = k then (k', v) :: t else (k', v') :: setField t k v

/-- JavaScript truthiness on the modelled context values. -/
def truthy : CtxVal → Bool
  | .nil => false
  | .str s => s != ""
  | .obj _ => true

/-- JavaScript property access `c[k]`: a missing object field is
`undefined`; field access on a string yields `undefined` for the
(generic, non-numeric, non-`length`) field names used here. -/
def indexCtx : CtxVal → String → CtxVal
  | .obj fs, k => (lookupField fs k).getD .nil
  | _, _ => .nil

/-- The reduce in `getNestedValue` (`src/main.ts` lines 484-486):
`(current, key) => current && current[key]` — a falsy intermediate value
propagates unchanged. -/
def getKeys : CtxVal → List String → CtxVal
  | c, [] => c
  | c, k :: ks => getKeys (if truthy c then indexCtx c k else c) ks

/-- The key walk of `setNestedValue` (`src/main.ts` lines 488-498): each
falsy intermediate `current[key]` is replaced by `{}` before descending;
the final key is assigned only when it is nonempty (`if (lastKey)`).
Assignment into a non-object target is a silent no-op in JavaScript for
a string target (and would throw for `undefined`, which only arises for
paths of three or more segments routed through a string value — no
theorem below reaches that case); both are modelled as the identity. -/
def setKeys : CtxVal → List String → CtxVal → CtxVal
  | .obj fs, [k], v => if k = "" then .obj fs else .obj (setField fs k v)
  | .obj fs, k :: k2 :: ks, v =>
      let child := (lookupField fs k).getD .nil
      let child2 := if truthy child then child else .obj []
      .obj (setField fs k (setKeys child2 (k2 :: ks) v))
  | c, _, _ => c

/-- `path.split('.')` producing the key list. -/
def splitPath (path : String) : List String :=
  (splitOnSep '.' path.data).map String.mk

/-- `getNestedValue` (`src/main.ts` lines 484-486). -/
def getNestedValue (obj : CtxVal) (path : String) : CtxVal :=
  getKeys obj (splitPath path)

/-- `setNestedValue` (`src/main.ts` lines 488-498). -/
def setNestedValue (obj : CtxVal) (path : String) (value : CtxVal) : CtxVal :=
  setKeys obj (splitPath path) value

/-- JavaScript `String.prototype.startsWith`. -/
def jsStartsWith (s p : String) : Bool :=
  isPrefixL p.data s.data

/-- The plugin settings relevant to the modelled code
(`ScreviSyncSettings`, `src/main.ts` lines 5-16). -/
structure ScreviSyncSettings where
  apiKey : String
  syncInterval : Nat
  defaultFolder : String
  autoSync : Bool
  lastSyncTime : Nat
  includeMetadata : Bool
  tagPrefix : String
  autoLinkFields : List String
  enableAutoLinking : Bool

/-- One iteration of the auto-link loop in `renderTemplate`
(`src/main.ts` lines 467-473): a truthy string value with nonblank trim
that is not already a `[[..]]` link or a `<mark`-span is rewritten in
place to `[[value]]`. -/
def autoLinkStep (ctx : CtxVal) (field : String) : CtxVal :=
  match getNestedValue ctx field with
  | .str v =>
      if v != "" && jsTrim v != "" && !(jsStartsWith v "[[") && !(jsStartsWith v "<mark") then
        setNestedValue ctx field (.str ("[[" ++ v ++ "]]"))
      else ctx
  | _ => ctx

/-- The spread `{...data, tag_prefix: this.settings.tagPrefix}`
(`src/main.ts` lines 460-463).  Spreading a string enumerates its
indexed characters, spreading `undefined` contributes nothing. -/
def injectTagPrefix (tp : String) : CtxVal → CtxVal
  | .obj fs => .obj (setField fs "tag_prefix" (.str tp))
  | .str s =>
      .obj ((s.data.enum.map fun p => (toString p.1, CtxVal.str (String.mk [p.2]))) ++
        [("tag_prefix", CtxVal.str tp)])
  | .nil => .obj [("tag_prefix", CtxVal.str tp)]

/-- The context actually handed to the Nunjucks renderer by
`renderTemplate` (`src/main.ts` lines 460-474): tag-prefix injection,
then the auto-link loop over the configured fields when enabled. -/
def buildContext (st : ScreviSyncSettings) (data : CtxVal) : CtxVal :=
  let ctx := injectTagPrefix st.tagPrefix data
  if st.enableAutoLinking then st.autoLinkFields.foldl autoLinkStep ctx else ctx

/-- `renderTemplate` (`src/main.ts` lines 457-482).  The Nunjucks
`renderString` call is an external collaborator, abstracted as a
function that either produces output or fails with an error message;
the surrounding `try`/`catch` turns any failure into an inline
`"Template Error: ..."` string. -/
def renderTemplate (renderString : String → CtxVal → Except String String)
    (st : ScreviSyncSettings) (template : String) (data : CtxVal) : String :=
  match renderString template (buildContext st data) with
  | .ok out => out
  | .error e => "Template Error: " ++ e

/-- The (year, month, day) triple read off a successfully parsed
JavaScript `Date` (`getFullYear()`, `getMonth() + 1`, `getDate()`). -/
structure JsDate where
  year : Nat
  month : Nat
  day : Nat
deriving DecidableEq

/-- JavaScript `String(n).padStart(2, '0')`. -/
def padStart2 (s : String) : String :=
  if s.length < 2 then String.mk (List.replicate (2 - s.length) '0') ++ s else s

/-- JavaScript `str.replace(pat, rep)` with a *string* pattern: only the
first occurrence is replaced. -/
def replaceFirstL (pat rep : List Char) : List Char → List Char
  | [] => if pat.isEmpty then rep else []
  | c :: t =>
      if isPrefixL pat (c :: t) then rep ++ (c :: t).drop pat.length
      else c :: replaceFirstL pat rep t

/-- String wrapper for `replaceFirstL`. -/
def replaceFirst (s pat rep : String) : String :=
  String.mk (replaceFirstL pat.data rep.data s.data)

/-- `formatDate` (`src/main.ts` lines 500-510): substitute the `YYYY`,
`MM`, `DD` tokens (first occurrence each, as JavaScript string-pattern
`replace` does) with the year and the zero-padded month and day. -/
def formatDate (d : JsDate) (format : String) : String :=
  replaceFirst
    (replaceFirst
      (replaceFirst format "YYYY" (toString d.year))
      "MM" (padStart2 (toString d.month)))
    "DD" (padStart2 (toString d.day))

/-- The `date` Nunjucks filter (`src/main.ts` lines 410-418).  `new
Date(dateStr)` parsing is host-defined and abstracted as `parse`:
`none` models an invalid date (`isNaN(date.getTime())`). -/
def dateFilter (parse : String → Option JsDate) (dateStr format : String) : String :=
  if dateStr ≠ "" then
    match parse dateStr with
    | some d => formatDate d format
    | none => dateStr
  else dateStr

/-- A raw highlight record inside a source, as read by the field mapping
in `fetchHighlightsSince` (`src/src/api/client.ts` lines 122-145); every
field may be absent. -/
structure HighlightObj where
  id : Option String
  content : Option String
  notes : Option String
  author : Option String
  url : Option String
  created_at : Option String
  updated_at : Option String
  tags : Option (List String)
  chapter : Option String
  page : Option Nat
  location : Option String
  color : Option String
  book_id : Option String
  metadata : Option CtxVal

/-- A raw source record from the listing endpoint
(`src/src/api/client.ts` lines 119-121). -/
structure SourceObj where
  highlights : Option (List HighlightObj)
  name : Option String
  type : Option String
  author : Option String
  url : Option String
  created_at : Option String

/-- A page response: either a bare array of sources, or an envelope with
an optional `data` array and an optional `pagination.hasMore` flag
(`src/src/api/client.ts` line 107). -/
inductive PageResponse where
  | arr (sources : List SourceObj)
  | env (data : Option (List SourceObj)) (hasMore : Option Bool)

/-- `Array.isArray(response) ? response : response.data || []`
(`src/src/api/client.ts` line 110). -/
def responseData : PageResponse → List SourceObj
  | .arr s => s
  | .env d _ => d.getD []

/-- `!Array.isArray(response) && response.pagination?.hasMore || false`
(`src/src/api/client.ts` line 113). -/
def responseHasMore : PageResponse → Bool
  | .arr _ => false
  | .env _ hm => hm.getD false

/-- The pagination loop of `fetchHighlightsSince`
(`src/src/api/client.ts` lines 92-115): request the current page, append
its records, and continue with `page + 1` while `hasMore` holds.
`count` counts HTTP requests made so far; the returned first component
is the total number of requests.  `fuel` bounds the loop (the real loop
does not terminate if every page says `hasMore`), and `none` models
non-termination within the given fuel. -/
def fetchPagesGo (pages : Nat → PageResponse) :
    Nat → Nat → Nat → List SourceObj → Option (Nat × List SourceObj)
  | 0, _, _, _ => none
  | fuel + 1, page, count, acc =>
      let r := pages page
      let acc2 := acc ++ responseData r
      if responseHasMore r then fetchPagesGo pages fuel (page + 1) (count + 1) acc2
      else some (count + 1, acc2)

/-- The per-highlight field mapping of `fetchHighlightsSince`
(`src/src/api/client.ts` lines 125-145), with the source-record
fallbacks and entity decoding applied there. -/
def mapHighlight (s : SourceObj) (h : HighlightObj) : Highlight :=
  { id := h.id
    content := decodeHtmlEntities (jsOrS h.content "")
    note := h.notes
    source := s.name
    sourceType := s.type
    title := decodeHtmlEntities (jsOrS s.name "")
    author := jsOrOpt h.author s.author
    url := jsOrOpt h.url s.url
    date := jsOrS (jsOrOpt h.created_at s.created_at) ""
    created_at := jsOrOpt h.created_at s.created_at
    updated_at := h.updated_at
    tags := h.tags
    chapter := h.chapter
    page := h.page
    location := h.location
    color := h.color
    book_id := h.book_id
    metadata := h.metadata }

/-- The flattening loop of `fetchHighlightsSince`
(`src/src/api/client.ts` lines 118-150): sources without a `highlights`
array contribute nothing. -/
def flattenSources (srcs : List SourceObj) : List Highlight :=
  srcs.foldl
    (fun acc s =>
      match s.highlights with
      | some hs => acc ++ hs.map (mapHighlight s)
      | none => acc)
    []

/-- `fetchHighlightsSince` (`src/src/api/client.ts` lines 90-153):
paginate from page 1, then flatten.  Returns the number of HTTP requests
made together with the flattened highlights. -/
def fetchHighlightsSince (pages : Nat → PageResponse) (fuel : Nat) :
    Option (Nat × List Highlight) :=
  (fetchPagesGo pages fuel 1 0 []).map fun p => (p.1, flattenSources p.2)

/-- The plugin state touched by a sync (`src/main.ts` lines 30-37):
settings, the cached highlight list, and the re-entrancy flag. -/
structure PluginState where
  settings : ScreviSyncSettings
  highlights : List Highlight
  isSyncing : Bool

/-- The state updates of `syncHighlights` (`src/main.ts` lines 181-231)
on its non-throwing paths, given the highlights returned by the fetch
and the wall-clock time `now` (`Date.now()`) observed after processing.
Returns the new state and the user notice.  File-vault writes
(`processHighlights`) are external collaborators and not modelled; the
cursor `lastSyncTime` is only assigned in the nonempty branch. -/
def syncHighlightsModel (st : PluginState) (fetched : List Highlight) (now : Nat) :
    PluginState × String :=
  if st.settings.apiKey = "" then
    (st, "Please set your Screvi API key in plugin settings")
  else if st.isSyncing then
    (st, "Sync already in progress")
  else if 0 < fetched.length then
    let uniqueHighlights := deduplicateHighlights fetched
    let existingIds := st.highlights.map highlightKey
    let newUnique := uniqueHighlights.filter fun h => !(existingIds.contains (highlightKey h))
    ({ st with
        highlights := newUnique ++ st.highlights,
        settings := { st.settings with lastSyncTime := now } },
      "Synced " ++ toString uniqueHighlights.length ++ " highlights from Screvi")
  else
    (st, "No new highlights to sync")

theorem dedupGo_sublist (t : List Highlight) (seen : List String) :
    (dedupGo t seen).Sublist t := by
  induction t generalizing seen with
  | nil => simp [dedupGo]
  | cons h t ih =>
      simp only [dedupGo]
      split
      · exact (ih seen).cons h
      · exact (ih (highlightKey h :: seen)).cons₂ h

theorem dedupGo_eq_firstOccurrenceWins (t : List Highlight) :
    ∀ (seen : List String) (pre : List Highlight),
    (∀ k, seen.contains k = true ↔ ∃ g ∈ pre, highlightKey g = k) →
    dedupGo t seen = firstOccurrenceWins pre t := by
  induction t with
  | nil => intro seen pre _; simp [dedupGo, firstOccurrenceWins]
  | cons a t ih =>
      intro seen pre inv
      by_cases hc : seen.contains (highlightKey a) = true
      · have hall : (pre.all fun g => highlightKey g != highlightKey a) = false := by
          obtain ⟨g, hg, hk⟩ := (inv _).mp hc
          exact List.all_eq_false.mpr ⟨g, hg, by simp [hk]⟩
        have inv' : ∀ k, seen.contains k = true ↔
            ∃ g ∈ pre ++ [a], highlightKey g = k := by
          intro k
          rw [inv k]
          constructor
          · rintro ⟨g, hg, hk⟩
            exact ⟨g, List.mem_append.mpr (Or.inl hg), hk⟩
          · rintro ⟨g, hg, hk⟩
            rcases List.mem_append.mp hg with hg' | hg'
            · exact ⟨g, hg', hk⟩
            · rw [List.mem_singleton] at hg'
              obtain ⟨g', hgp, hk'⟩ := (inv _).mp hc
              exact ⟨g', hgp, by rw [hk']; rw [hg'] at hk; exact hk⟩
        simp only [dedupGo, firstOccurrenceWins, hc, hall]
        simp only [if_true, Bool.false_eq_true, if_false]
        exact ih seen (pre ++ [a]) inv'
      · have hall : (pre.all fun g => highlightKey g != highlightKey a) = true := by
          rw [List.all_eq_true]
          intro g hg
          simp only [bne_iff_ne, ne_eq]
          intro hk
          exact hc ((inv _).mpr ⟨g, hg, hk⟩)
        have inv' : ∀ k, (highlightKey a :: seen).contains k = true ↔
            ∃ g ∈ pre ++ [a], highlightKey g = k := by
          intro k
          simp only [List.contains_cons, Bool.or_eq_true, beq_iff_eq]
          rw [inv k]
          constructor
          · rintro (rfl | ⟨g, hg, hk⟩)
            · exact ⟨a, List.mem_append.mpr (Or.inr (List.mem_singleton.mpr rfl)), rfl⟩
            · exact ⟨g, List.mem_append.mpr (Or.inl hg), hk⟩
          · rintro ⟨g, hg, hk⟩
            rcases List.mem_append.mp hg with hg' | hg'
            · exact Or.inr ⟨g, hg', hk⟩
            · rw [List.mem_singleton] at hg'
              exact Or.inl (by rw [← hk, hg'])
        have hc' : seen.contains (highlightKey a) = false := by
          simpa using hc
        simp only [dedupGo, firstOccurrenceWins, hc', hall]
        simp only [Bool.false_eq_true, if_false, if_true]
        rw [ih (highlightKey a :: seen) (pre ++ [a]) inv']

/-- Claim C1: `deduplicateHighlights` is the order-preserving,
first-occurrence-wins deduplication on the composite key
`(content || '') ++ "_" ++ (created_at || date || '')`: it equals the
spec-side "keep exactly when no earlier highlight has the same key"
function, is a subsequence of its input (hence preserves first-seen
order), and never increases length. -/
theorem deduplicateHighlights_spec (hs : List Highlight) :
    deduplicateHighlights hs = firstOccurrenceWins [] hs ∧
    (deduplicateHighlights hs).Sublist hs ∧
    (deduplicateHighlights hs).length ≤ hs.length := by
  refine ⟨?_, dedupGo_sublist hs [], (dedupGo_sublist hs []).length_le⟩
  exact dedupGo_eq_firstOccurrenceWins hs [] [] (fun k => by simp)

theorem string_mk_data (s : String) : String.mk s.data = s := rfl

theorem replaceAllGo_no_occurrence (pat rep : List Char) :
    ∀ (fuel : Nat) (l : List Char), isInfixL pat l = false →
      replaceAllGo pat rep fuel l = l := by
  intro fuel
  induction fuel with
  | zero => intro l _; cases l <;> rfl
  | succ n ih =>
      intro l hl
      cases l with
      | nil => rfl
      | cons c t =>
          rw [isInfixL] at hl
          rcases Bool.or_eq_false_iff.mp hl with ⟨hp, ht⟩
          simp only [replaceAllGo, hp, Bool.false_eq_true, if_false]
          rw [ih t ht]

theorem replaceAllL_no_occurrence (pat rep l : List Char)
    (h : isInfixL pat l = false) : replaceAllL pat rep l = l :=
  replaceAllGo_no_occurrence pat rep l.length l h

theorem foldl_replaceAll_no_occurrence (tbl : List (String × String)) :
    ∀ l : List Char, (∀ p ∈ tbl, isInfixL p.1.data l = false) →
      tbl.foldl (fun acc p => replaceAllL p.1.data p.2.data acc) l = l := by
  induction tbl with
  | nil => intro l _; rfl
  | cons p tbl ih =>
      intro l hl
      have h1 : replaceAllL p.1.data p.2.data l = l :=
        replaceAllL_no_occurrence _ _ _ (hl p (by simp))
      rw [List.foldl_cons, h1]
      exact ih l fun q hq => hl q (by simp [hq])

theorem decodeDecGo_of_no_entity :
    ∀ (fuel : Nat) (l : List Char), hasDecEntity l = false →
      decodeDecGo fuel l = l := by
  intro fuel
  induction fuel with
  | zero => intro l _; cases l <;> rfl
  | succ n ih =>
      intro l hl
      cases l with
      | nil => rfl
      | cons c t =>
          rw [hasDecEntity] at hl
          rcases Bool.or_eq_false_iff.mp hl with ⟨hm, ht⟩
          rw [Option.not_isSome, Option.isNone_iff_eq_none] at hm
          simp only [decodeDecGo, hm]
          rw [ih t ht]

theorem decodeHexGo_of_no_entity :
    ∀ (fuel : Nat) (l : List Char), hasHexEntity l = false →
      decodeHexGo fuel l = l := by
  intro fuel
  induction fuel with
  | zero => intro l _; cases l <;> rfl
  | succ n ih =>
      intro l hl
      cases l with
      | nil => rfl
      | cons c t =>
          rw [hasHexEntity] at hl
          rcases Bool.or_eq_false_iff.mp hl with ⟨hm, ht⟩
          rw [Option.not_isSome, Option.isNone_iff_eq_none] at hm
          simp only [decodeHexGo, hm]
          rw [ih t ht]

theorem jsonUnescape_of_clean (l : List Char)
    (h1 : isInfixL ['\\', 'n'] l = false) (h2 : isInfixL ['\\', 't'] l = false)
    (h3 : isInfixL ['\\', 'r'] l = false) (h4 : isInfixL ['\\', '"'] l = false)
    (h5 : isInfixL ['\\', '\\'] l = false) : jsonUnescape l = l := by
  rw [jsonUnescape, replaceAllL_no_occurrence _ _ _ h1,
    replaceAllL_no_occurrence _ _ _ h2, replaceAllL_no_occurrence _ _ _ h3,
    replaceAllL_no_occurrence _ _ _ h4, replaceAllL_no_occurrence _ _ _ h5]

theorem decodeHtmlEntities_of_clean (s : String) (h : cleanText s = true) :
    decodeHtmlEntities s = s := by
  simp only [cleanText, Bool.and_eq_true, List.all_eq_true, Bool.not_eq_true'] at h
  obtain ⟨⟨⟨hesc, hent⟩, hdec⟩, hhex⟩ := h
  by_cases hs : s = ""
  · rw [decodeHtmlEntities, if_pos hs]
  · rw [decodeHtmlEntities, if_neg hs]
    simp only
    rw [jsonUnescape_of_clean s.data (hesc _ (by simp)) (hesc _ (by simp))
      (hesc _ (by simp)) (hesc _ (by simp)) (hesc _ (by simp))]
    rw [foldl_replaceAll_no_occurrence entityTable s.data hent]
    rw [decodeDecGo_of_no_entity _ _ hdec, decodeHexGo_of_no_entity _ _ hhex]

/-- Claim C5: the entity decoder is idempotent on already-clean text —
a string with no backslash-escape sequence and no named or numeric
HTML-entity pattern decodes to itself, and whenever one decoding pass
produces such a clean string, a second pass changes nothing. -/
theorem decodeHtmlEntities_idempotent (s : String) :
    (cleanText s = true → decodeHtmlEntities s = s) ∧
    (cleanText (decodeHtmlEntities s) = true →
      decodeHtmlEntities (decodeHtmlEntities s) = decodeHtmlEntities s) :=
  ⟨decodeHtmlEntities_of_clean s, decodeHtmlEntities_of_clean (decodeHtmlEntities s)⟩

theorem decodeHtmlEntities_idempotent_witness :
    decodeHtmlEntities "Already clean text, & untouched." =
      "Already clean text, & untouched." :=
  (decodeHtmlEntities_idempotent "Already clean text, & untouched.").1 (by decide)

theorem splitOnSep_ne_nil (sep : Char) (l : List Char) : splitOnSep sep l ≠ [] := by
  cases l with
  | nil => simp [splitOnSep]
  | cons c t =>
      rw [splitOnSep]
      split
      · simp
      · split <;> simp

theorem not_mem_of_mem_splitOnSep (sep : Char) :
    ∀ (l : List Char) (p : List Char), p ∈ splitOnSep sep l → sep ∉ p := by
  intro l
  induction l with
  | nil =>
      intro p hp
      simp only [splitOnSep, List.mem_singleton] at hp
      simp [hp]
  | cons c t ih =>
      intro p hp
      rw [splitOnSep] at hp
      by_cases hc : c = sep
      · rw [if_pos hc] at hp
        rcases List.mem_cons.mp hp with rfl | hp'
        · simp
        · exact ih p hp'
      · rw [if_neg hc] at hp
        cases hsp : splitOnSep sep t with
        | nil => exact absurd hsp (splitOnSep_ne_nil sep t)
        | cons q qs =>
            rw [hsp] at hp
            rcases List.mem_cons.mp hp with rfl | hp'
            · intro hmem
              rcases List.mem_cons.mp hmem with h1 | h2
              · exact hc h1.symm
              · exact ih q (by simp [hsp]) h2
            · exact ih p (by simp [hsp, hp'])

theorem splitOnSep_of_not_mem (sep : Char) :
    ∀ p : List Char, sep ∉ p → splitOnSep sep p = [p] := by
  intro p
  induction p with
  | nil => intro _; rfl
  | cons c t ih =>
      intro h
      have hc : ¬c = sep := fun hc => h (by simp [hc])
      have ht : sep ∉ t := fun hm => h (by simp [hm])
      rw [splitOnSep, if_neg hc, ih ht]

theorem splitOnSep_append (sep : Char) :
    ∀ (p r : List Char), sep ∉ p →
      splitOnSep sep (p ++ sep :: r) = p :: splitOnSep sep r := by
  intro p
  induction p with
  | nil => intro r _; simp [splitOnSep]
  | cons c t ih =>
      intro r h
      have hc : ¬c = sep := fun hc => h (by simp [hc])
      have ht : sep ∉ t := fun hm => h (by simp [hm])
      rw [List.cons_append, splitOnSep, if_neg hc, ih r ht]

theorem splitOnSep_joinSep (sep : Char) :
    ∀ ps : List (List Char), ps ≠ [] → (∀ p ∈ ps, sep ∉ p) →
      splitOnSep sep (joinSep sep ps) = ps := by
  intro ps
  induction ps with
  | nil => intro h _; exact absurd rfl h
  | cons p ps ih =>
      intro _ hmem
      cases ps with
      | nil => exact splitOnSep_of_not_mem sep p (hmem p (by simp))
      | cons q qs =>
          rw [show joinSep sep (p :: q :: qs) = p ++ sep :: joinSep sep (q :: qs) from rfl,
            splitOnSep_append sep p _ (hmem p (by simp))]
          rw [ih (List.cons_ne_nil q qs) fun r hr => hmem r (by simp [hr])]

/-- Claim C6 (amended): for input whose whitespace-trimmed form is
nonempty, the blockquote transformation emits exactly one output line
per line of the *trimmed* input — each nonblank line prefixed with
`"> "`, each blank line becoming a bare `">"` — so every output line
starts with `>`; whitespace-only input is returned unchanged, and the
`blockquote` filter is the same transformation applied to the
entity-decoded text. -/
theorem formatAsBlockquote_lines (s : String) :
    (trimChars s.data = [] → formatAsBlockquote s = s) ∧
    (trimChars s.data ≠ [] →
      splitOnSep '\n' (formatAsBlockquote s).data =
        (splitOnSep '\n' (trimChars s.data)).map bqLine ∧
      (splitOnSep '\n' (formatAsBlockquote s).data).length =
        (splitOnSep '\n' (trimChars s.data)).length ∧
      ∀ l ∈ splitOnSep '\n' (formatAsBlockquote s).data, l.head? = some '>') ∧
    (trimChars s.data ≠ [] → trimChars (decodeHtmlEntities s).data ≠ [] →
      blockquoteFilter s = formatAsBlockquote (decodeHtmlEntities s)) := by
  refine ⟨fun h => by rw [formatAsBlockquote, if_pos h], fun h => ?_, fun h1 h2 => ?_⟩
  · have hdata : (formatAsBlockquote s).data =
        joinSep '\n' ((splitOnSep '\n' (trimChars s.data)).map bqLine) := by
      rw [formatAsBlockquote, if_neg h]
    have hsplit : splitOnSep '\n' (formatAsBlockquote s).data =
        (splitOnSep '\n' (trimChars s.data)).map bqLine := by
      rw [hdata]
      apply splitOnSep_joinSep
      · simp [splitOnSep_ne_nil]
      · intro q hq
        rcases List.mem_map.mp hq with ⟨p, hp, rfl⟩
        have hnp : '\n' ∉ p := not_mem_of_mem_splitOnSep '\n' _ p hp
        rw [bqLine]
        split
        · simp
        · intro hmem
          rcases List.mem_cons.mp hmem with h1 | h1
          · exact absurd h1 (by decide)
          · rcases List.mem_cons.mp h1 with h2 | h2
            · exact absurd h2 (by decide)
            · exact hnp h2
    refine ⟨hsplit, by rw [hsplit, List.length_map], ?_⟩
    intro l hl
    rw [hsplit] at hl
    rcases List.mem_map.mp hl with ⟨p, _, rfl⟩
    rw [bqLine]
    split <;> rfl
  · rw [blockquoteFilter, if_neg h1, formatAsBlockquote, if_neg h2]

theorem formatAsBlockquote_lines_witness :
    splitOnSep '\n' (formatAsBlockquote "  a\n\nb  ").data =
      (splitOnSep '\n' (trimChars ("  a\n\nb  ").data)).map bqLine :=
  ((formatAsBlockquote_lines "  a\n\nb  ").2.1 (by decide)).1

/-- Counterexample to claim C6 as stated: the input `"a\n"` has two
lines, but the blockquote transformation trims the whole text first and
produces a single line. -/
theorem formatAsBlockquote_line_count_counterexample :
    (splitOnSep '\n' (formatAsBlockquote "a\n").data).length ≠
      (splitOnSep '\n' ("a\n" : String).data).length := by
  decide

theorem noDoubleSlash_cons_cons (a b : Char) (t : List Char) :
    noDoubleSlash (a :: b :: t) = (!(a = '/' && b = '/') && noDoubleSlash (b :: t)) := rfl

theorem noDoubleSlash_tail (a : Char) (l : List Char)
    (h : noDoubleSlash (a :: l) = true) : noDoubleSlash l = true := by
  cases l with
  | nil => rfl
  | cons b t =>
      rw [noDoubleSlash_cons_cons] at h
      exact (Bool.and_eq_true_iff.mp h).2

theorem collapseSlashes_cons_cons (a b : Char) (t : List Char) :
    collapseSlashes (a :: b :: t) =
      if a = '/' && b = '/' then collapseSlashes (b :: t)
      else a :: collapseSlashes (b :: t) := rfl

theorem collapseSlashes_head : ∀ (b : Char) (t : List Char),
    (collapseSlashes (b :: t)).head? = some b
  | _, [] => rfl
  | b, c :: t => by
      rw [collapseSlashes_cons_cons]
      split
      · rename_i h
        simp only [Bool.and_eq_true, decide_eq_true_eq] at h
        rw [collapseSlashes_head c t, h.1, h.2]
      · rfl

theorem collapseSlashes_sublist : ∀ l : List Char, (collapseSlashes l).Sublist l
  | [] => List.Sublist.refl []
  | [c] => List.Sublist.refl [c]
  | a :: b :: t => by
      rw [collapseSlashes_cons_cons]
      split
      · exact (collapseSlashes_sublist (b :: t)).cons a
      · exact (collapseSlashes_sublist (b :: t)).cons₂ a

theorem collapseSlashes_noDouble : ∀ l : List Char,
    noDoubleSlash (collapseSlashes l) = true
  | [] => rfl
  | [c] => rfl
  | a :: b :: t => by
      rw [collapseSlashes_cons_cons]
      split
      · exact collapseSlashes_noDouble (b :: t)
      · rename_i h
        have hrec := collapseSlashes_noDouble (b :: t)
        rcases hcb : collapseSlashes (b :: t) with _ | ⟨x, xs⟩
        · rfl
        · rw [hcb] at hrec
          have hx : x = b := by
            have hh := collapseSlashes_head b t
            rw [hcb] at hh
            simpa using hh
          rw [noDoubleSlash_cons_cons]
          refine Bool.and_eq_true_iff.mpr ⟨?_, hrec⟩
          subst hx
          simp only [Bool.not_eq_true', Bool.and_eq_false_iff, decide_eq_false_iff_not]
          simp only [Bool.and_eq_true, decide_eq_true_eq, not_and] at h
          tauto
  termination_by l => l.length

theorem dropLeadingSlash_noDouble (l : List Char) (h : noDoubleSlash l = true) :
    noDoubleSlash (dropLeadingSlash l) = true := by
  cases l with
  | nil => rfl
  | cons c t =>
      rw [dropLeadingSlash]
      split
      · exact noDoubleSlash_tail c t h
      · exact h

theorem dropLeadingSlash_head (l : List Char) (h : noDoubleSlash l = true) :
    (dropLeadingSlash l).head? ≠ some '/' := by
  cases l with
  | nil => simp [dropLeadingSlash]
  | cons c t =>
      rw [dropLeadingSlash]
      split
      · rename_i hc
        cases t with
        | nil => simp
        | cons b t' =>
            intro hb
            simp only [List.head?_cons, Option.some.injEq] at hb
            rw [noDoubleSlash_cons_cons] at h
            rcases Bool.and_eq_true_iff.mp h with ⟨h1, _⟩
            rw [hc, hb] at h1
            simp at h1
      · rename_i hc
        simp only [List.head?_cons, ne_eq, Option.some.injEq]
        exact hc

theorem mem_dropLeadingSlash {c : Char} {l : List Char}
    (h : c ∈ dropLeadingSlash l) : c ∈ l := by
  cases l with
  | nil => exact h
  | cons a t =>
      rw [dropLeadingSlash] at h
      split at h
      · exact List.mem_cons_of_mem a h
      · exact h

theorem dropTrailingSlash_single (a : Char) :
    dropTrailingSlash [a] = if a = '/' then [] else [a] := rfl

theorem dropTrailingSlash_cons_cons (a b : Char) (t : List Char) :
    dropTrailingSlash (a :: b :: t) = a :: dropTrailingSlash (b :: t) := rfl

theorem mem_dropTrailingSlash : ∀ {c : Char} (l : List Char),
    c ∈ dropTrailingSlash l → c ∈ l := by
  intro c l
  induction l with
  | nil => intro h; exact h
  | cons a t ih =>
      cases t with
      | nil =>
          rw [dropTrailingSlash_single]
          split
          · intro h; exact absurd h (List.not_mem_nil c)
          · intro h; exact h
      | cons b t' =>
          rw [dropTrailingSlash_cons_cons]
          intro h
          rcases List.mem_cons.mp h with rfl | h'
          · exact List.mem_cons_self c _
          · exact List.mem_cons_of_mem a (ih h')

theorem dropTrailingSlash_head : ∀ l : List Char,
    (dropTrailingSlash l).head? = none ∨ (dropTrailingSlash l).head? = l.head?
  | [] => Or.inl rfl
  | [a] => by
      rw [dropTrailingSlash_single]
      split
      · exact Or.inl rfl
      · exact Or.inr rfl
  | _ :: _ :: _ => by
      rw [dropTrailingSlash_cons_cons]
      exact Or.inr rfl

theorem dropTrailingSlash_noDouble : ∀ l : List Char, noDoubleSlash l = true →
    noDoubleSlash (dropTrailingSlash l) = true
  | [], _ => rfl
  | [a], _ => by
      rw [dropTrailingSlash_single]
      split <;> rfl
  | a :: b :: t, h => by
      rw [dropTrailingSlash_cons_cons]
      have hrec := dropTrailingSlash_noDouble (b :: t) (noDoubleSlash_tail a _ h)
      rcases hd : dropTrailingSlash (b :: t) with _ | ⟨x, xs⟩
      · rfl
      · rw [hd] at hrec
        have hx : x = b := by
          rcases dropTrailingSlash_head (b :: t) with hh | hh <;> rw [hd] at hh
          · exact absurd hh (by simp)
          · simpa using hh
        rw [noDoubleSlash_cons_cons]
        refine Bool.and_eq_true_iff.mpr ⟨?_, hrec⟩
        subst hx
        rw [noDoubleSlash_cons_cons] at h
        exact (Bool.and_eq_true_iff.mp h).1

theorem dropTrailingSlash_getLast : ∀ l : List Char, noDoubleSlash l = true →
    (dropTrailingSlash l).getLast? ≠ some '/'
  | [], _ => by simp [dropTrailingSlash]
  | [a], _ => by
      rw [dropTrailingSlash_single]
      split
      · simp
      · rename_i ha
        simp only [List.getLast?_singleton, ne_eq, Option.some.injEq]
        exact ha
  | a :: b :: t, h => by
      rw [dropTrailingSlash_cons_cons]
      have hrec := dropTrailingSlash_getLast (b :: t) (noDoubleSlash_tail a _ h)
      rcases hd : dropTrailingSlash (b :: t) with _ | ⟨x, xs⟩
      · cases t with
        | nil =>
            rw [dropTrailingSlash_single] at hd
            split at hd
            · rename_i hb
              rw [noDoubleSlash_cons_cons] at h
              have h1 := (Bool.and_eq_true_iff.mp h).1
              rw [hb] at h1
              simp at h1
              simpa using h1
            · exact absurd hd (by simp)
        | cons c t' =>
            rw [dropTrailingSlash_cons_cons] at hd
            exact absurd hd (by simp)
      · rw [hd] at hrec
        rw [List.getLast?_cons_cons]
        exact hrec

theorem jsToLower_eq_self_of_not_upper (c : Char)
    (h : upperChars.contains c = false) : jsToLower c = c := by
  rw [jsToLower.eq_def]
  split <;> simp_all [upperChars]

theorem jsToLower_eq_slash {c : Char} (h : jsToLower c = '/') : c = '/' := by
  by_cases hu : upperChars.contains c = true
  · have hm : c ∈ upperChars := by
      rw [List.contains_eq_any_beq] at hu
      simpa using hu
    simp only [upperChars, List.mem_cons, List.not_mem_nil, or_false] at hm
    rcases hm with rfl | rfl | rfl | rfl | rfl | rfl | rfl | rfl | rfl | rfl | rfl |
      rfl | rfl | rfl | rfl | rfl | rfl | rfl | rfl | rfl | rfl | rfl | rfl | rfl |
      rfl | rfl <;> exact absurd h (by decide)
  · rw [jsToLower_eq_self_of_not_upper c (by simpa using hu)] at h
    exact h

theorem isAllowedTagChar_jsToLower (c : Char) (h : isKeepChar c = true) :
    isAllowedTagChar (jsToLower c) = true := by
  by_cases hu : upperChars.contains c = true
  · have hm : c ∈ upperChars := by
      rw [List.contains_eq_any_beq] at hu
      simpa using hu
    simp only [upperChars, List.mem_cons, List.not_mem_nil, or_false] at hm
    rcases hm with rfl | rfl | rfl | rfl | rfl | rfl | rfl | rfl | rfl | rfl | rfl |
      rfl | rfl | rfl | rfl | rfl | rfl | rfl | rfl | rfl | rfl | rfl | rfl | rfl |
      rfl | rfl <;> decide
  · rw [jsToLower_eq_self_of_not_upper c (by simpa using hu)]
    simp only [isKeepChar, isWordCharB, Bool.or_eq_true] at h
    rcases h with ((((hx | hx) | hx) | hx) | hx) | hx
    · exact absurd hx hu
    · simp only [isAllowedTagChar, Bool.or_eq_true]
      exact Or.inl (Or.inl (Or.inl (Or.inl hx)))
    · simp only [isAllowedTagChar, Bool.or_eq_true]
      exact Or.inl (Or.inl (Or.inl (Or.inr hx)))
    · simp only [isAllowedTagChar, Bool.or_eq_true]
      exact Or.inl (Or.inl (Or.inr hx))
    · simp only [isAllowedTagChar, Bool.or_eq_true]
      exact Or.inl (Or.inr hx)
    · simp only [isAllowedTagChar, Bool.or_eq_true]
      exact Or.inr hx

theorem map_jsToLower_noDouble : ∀ l : List Char, noDoubleSlash l = true →
    noDoubleSlash (l.map jsToLower) = true
  | [], _ => rfl
  | [a], _ => rfl
  | a :: b :: t, h => by
      rw [List.map_cons, List.map_cons, noDoubleSlash_cons_cons]
      rw [noDoubleSlash_cons_cons] at h
      rcases Bool.and_eq_true_iff.mp h with ⟨h1, h2⟩
      have hrec := map_jsToLower_noDouble (b :: t) h2
      rw [List.map_cons] at hrec
      refine Bool.and_eq_true_iff.mpr ⟨?_, hrec⟩
      simp only [Bool.not_eq_true', Bool.and_eq_false_iff, decide_eq_false_iff_not]
      by_cases ha : jsToLower a = '/'
      · right
        intro hb
        have ha' := jsToLower_eq_slash ha
        have hb' := jsToLower_eq_slash hb
        rw [ha', hb'] at h1
        simp at h1
      · exact Or.inl ha

/-- Claim C8: for every input, `sanitizeTagName` produces only lowercase
word characters, hyphens and forward slashes, with no two consecutive
slashes and no leading or trailing slash. -/
theorem sanitizeTagName_output (s : String) :
    (∀ c ∈ (sanitizeTagName s).data, isAllowedTagChar c = true) ∧
    noDoubleSlash (sanitizeTagName s).data = true ∧
    (sanitizeTagName s).data.head? ≠ some '/' ∧
    (sanitizeTagName s).data.getLast? ≠ some '/' := by
  have hdata : (sanitizeTagName s).data =
      (dropTrailingSlash
        (dropLeadingSlash
          (collapseSlashes
            ((collapseWsToHyphen s.data).filter isKeepChar)))).map jsToLower := rfl
  have hkeep2 : ∀ c ∈ collapseSlashes ((collapseWsToHyphen s.data).filter isKeepChar),
      isKeepChar c = true := by
    intro c hc
    have hc1 := (collapseSlashes_sublist _).subset hc
    exact (List.mem_filter.mp hc1).2
  have hnd2 := collapseSlashes_noDouble ((collapseWsToHyphen s.data).filter isKeepChar)
  have hnd3 := dropLeadingSlash_noDouble _ hnd2
  have hh3 := dropLeadingSlash_head _ hnd2
  have hnd4 := dropTrailingSlash_noDouble _ hnd3
  have hlast4 := dropTrailingSlash_getLast _ hnd3
  have hh4 : (dropTrailingSlash
      (dropLeadingSlash
        (collapseSlashes
          ((collapseWsToHyphen s.data).filter isKeepChar)))).head? ≠ some '/' := by
    rcases dropTrailingSlash_head
        (dropLeadingSlash
          (collapseSlashes ((collapseWsToHyphen s.data).filter isKeepChar))) with
      hh | hh <;> rw [hh]
    · simp
    · exact hh3
  have hmem4 : ∀ c ∈ dropTrailingSlash
      (dropLeadingSlash
        (collapseSlashes ((collapseWsToHyphen s.data).filter isKeepChar))),
      isKeepChar c = true := by
    intro c hc
    exact hkeep2 c (mem_dropLeadingSlash (mem_dropTrailingSlash _ hc))
  refine ⟨?_, ?_, ?_, ?_⟩
  · intro c hc
    rw [hdata] at hc
    rcases List.mem_map.mp hc with ⟨d, hd, rfl⟩
    exact isAllowedTagChar_jsToLower d (hmem4 d hd)
  · rw [hdata]
    exact map_jsToLower_noDouble _ hnd4
  · rw [hdata, List.head?_map]
    intro hcon
    rcases Option.map_eq_some'.mp hcon with ⟨d, hopt, hd⟩
    exact hh4 (by rw [hopt, jsToLower_eq_slash hd])
  · rw [hdata, List.getLast?_map]
    intro hcon
    rcases Option.map_eq_some'.mp hcon with ⟨d, hopt, hd⟩
    exact hlast4 (by rw [hopt, jsToLower_eq_slash hd])

theorem sanitizeTagName_output_witness : isAllowedTagChar 'm' = true :=
  (sanitizeTagName_output "My Tag!").1 'm' (by decide)

/-- Claim C10, evaluated at the failing input: `sanitizeFileName`
strips trailing dots *before* trimming whitespace, so an input whose
trailing dot is followed by whitespace produces an output that still
ends in a dot (a Windows-problematic name, contradicting the
function's own "remove trailing dots (Windows issue)" comment). -/
theorem sanitizeFileName_trailing_dot_bug :
    sanitizeFileName "a. " = "a." ∧
    ("a." : String).data.getLast? = some '.' := by
  constructor
  · rfl
  · rfl

/-- Claim C9 (amended): the `date` filter returns its input unchanged
when the input is empty or does not parse as a valid timestamp, and
otherwise substitutes only the *first* occurrence of each of the
`YYYY`, `MM`, `DD` tokens of the format (JavaScript string-pattern
`replace`) with the *unpadded* year (`String(year)`) and the
zero-padded month and day; `padStart2` pads any value below 100 to
exactly two digits. -/
theorem dateFilter_spec (parse : String → Option JsDate) (s fmt : String) :
    (s = "" → dateFilter parse s fmt = s) ∧
    (parse s = none → dateFilter parse s fmt = s) ∧
    (∀ d : JsDate, s ≠ "" → parse s = some d →
      dateFilter parse s fmt =
        replaceFirst
          (replaceFirst
            (replaceFirst fmt "YYYY" (toString d.year))
            "MM" (padStart2 (toString d.month)))
          "DD" (padStart2 (toString d.day))) ∧
    (∀ n : Nat, n < 100 → (padStart2 (toString n)).length = 2) := by
  refine ⟨?_, ?_, ?_, ?_⟩
  · intro h
    rw [dateFilter, if_neg (by simp [h])]
  · intro h
    by_cases hs : s = ""
    · rw [dateFilter, if_neg (by simp [hs])]
    · rw [dateFilter, if_pos hs, h]
  · intro d hs hd
    rw [dateFilter, if_pos hs, hd]
    rfl
  · decide

theorem dateFilter_spec_witness :
    dateFilter (fun s => if s = "2024-03-05T10:00:00Z" then some ⟨2024, 3, 5⟩ else none)
        "2024-03-05T10:00:00Z" "YYYY-MM-DD" =
      replaceFirst
        (replaceFirst
          (replaceFirst "YYYY-MM-DD" "YYYY" (toString (2024 : Nat)))
          "MM" (padStart2 (toString (3 : Nat))))
        "DD" (padStart2 (toString (5 : Nat))) :=
  (dateFilter_spec (fun s => if s = "2024-03-05T10:00:00Z" then some ⟨2024, 3, 5⟩ else none)
      "2024-03-05T10:00:00Z" "YYYY-MM-DD").2.2.1 ⟨2024, 3, 5⟩ (by decide) (by decide)

theorem getKeys_nil : ∀ ks : List String, getKeys CtxVal.nil ks = CtxVal.nil := by
  intro ks
  induction ks with
  | nil => rfl
  | cons k ks ih => simpa [getKeys, truthy] using ih

theorem truthy_of_getKeys_str : ∀ (ks : List String) (c : CtxVal) (v : String),
    getKeys c ks = .str v → v ≠ "" → truthy c = true := by
  intro ks
  induction ks with
  | nil =>
      intro c v hget hv
      simp only [getKeys] at hget
      rw [hget]
      simpa [truthy] using hv
  | cons k ks ih =>
      intro c v hget hv
      simp only [getKeys] at hget
      by_cases htr : truthy c = true
      · exact htr
      · rw [if_neg (by simp [htr])] at hget
        exact ih c v hget hv

theorem lookupField_setField : ∀ (fs : List (String × CtxVal)) (k : String) (v : CtxVal),
    lookupField (setField fs k v) k = some v := by
  intro fs
  induction fs with
  | nil => intro k v; simp [setField, lookupField]
  | cons p t ih =>
      intro k v
      by_cases hk : p.1 = k
      · rw [show setField (p :: t) k v = (p.1, v) :: t from by
          rw [show (p : String × CtxVal) = (p.1, p.2) from rfl, setField, if_pos hk]]
        rw [lookupField, if_pos hk]
      · rw [show setField (p :: t) k v = (p.1, p.2) :: setField t k v from by
          rw [show (p : String × CtxVal) = (p.1, p.2) from rfl, setField, if_neg hk]]
        rw [lookupField, if_neg hk]
        exact ih k v

theorem getKeys_cons (c : CtxVal) (k : String) (ks : List String) :
    getKeys c (k :: ks) = getKeys (if truthy c then indexCtx c k else c) ks := rfl

theorem indexCtx_obj (fs : List (String × CtxVal)) (k : String) :
    indexCtx (CtxVal.obj fs) k = (lookupField fs k).getD CtxVal.nil := rfl

theorem indexCtx_str (s : String) (k : String) :
    indexCtx (CtxVal.str s) k = CtxVal.nil := rfl

theorem setKeys_single (fs : List (String × CtxVal)) (k : String) (w : CtxVal) :
    setKeys (CtxVal.obj fs) [k] w =
      if k = "" then CtxVal.obj fs else CtxVal.obj (setField fs k w) := rfl

theorem setKeys_cons (fs : List (String × CtxVal)) (k k2 : String)
    (ks : List String) (w : CtxVal) :
    setKeys (CtxVal.obj fs) (k :: k2 :: ks) w =
      CtxVal.obj (setField fs k
        (setKeys
          (if truthy ((lookupField fs k).getD CtxVal.nil) then
            (lookupField fs k).getD CtxVal.nil
          else CtxVal.obj [])
          (k2 :: ks) w)) := rfl

theorem getKeys_setKeys : ∀ (ks : List String) (c : CtxVal) (v : String) (w : CtxVal),
    ks ≠ [] → ks.getLast? ≠ some "" → getKeys c ks = .str v → v ≠ "" →
    getKeys (setKeys c ks w) ks = w := by
  intro ks
  induction ks with
  | nil => intro c v w h; exact absurd rfl h
  | cons k ks ih =>
      intro c v w _ hlast hget hv
      have htr : truthy c = true := truthy_of_getKeys_str _ c v hget hv
      rw [getKeys_cons, if_pos htr] at hget
      cases ks with
      | nil =>
          have hk : k ≠ "" := by
            intro hk
            exact hlast (by rw [hk]; rfl)
          simp only [getKeys] at hget
          cases c with
          | nil => exact absurd htr (by simp [truthy])
          | str s =>
              rw [indexCtx_str] at hget
              exact absurd hget (by simp)
          | obj fs =>
              rw [setKeys_single, if_neg hk, getKeys_cons,
                if_pos (show truthy (CtxVal.obj (setField fs k w)) = true from rfl),
                indexCtx_obj, lookupField_setField]
              rfl
      | cons k2 ks' =>
          cases c with
          | nil => exact absurd htr (by simp [truthy])
          | str s =>
              rw [indexCtx_str, getKeys_nil] at hget
              exact absurd hget (by simp)
          | obj fs =>
              rw [indexCtx_obj] at hget
              have htrc : truthy ((lookupField fs k).getD CtxVal.nil) = true :=
                truthy_of_getKeys_str _ _ v hget hv
              rw [setKeys_cons, if_pos htrc, getKeys_cons,
                if_pos (show truthy (CtxVal.obj (setField fs k
                  (setKeys ((lookupField fs k).getD CtxVal.nil) (k2 :: ks') w))) = true
                  from rfl),
                indexCtx_obj, lookupField_setField, Option.getD_some]
              exact ih _ v w (by simp)
                (by rwa [List.getLast?_cons_cons] at hlast) hget hv

theorem splitPath_ne_nil (f : String) : splitPath f ≠ [] := by
  rw [splitPath]
  simp [splitOnSep_ne_nil]

/-- Claim C7 (amended): with auto-linking enabled, a configured field
(a dot-path with a nonempty final segment) whose resolved value is a
string with *non-blank trim* — not merely non-empty, as the original
claim said: the code's `value.trim()` check skips whitespace-only
values — and not already `[[..]]`-linked or `<mark`-wrapped is
rewritten in place to `[[value]]`; a value already starting with `[[`
is left untouched (never double-wrapped); with auto-linking disabled no
field is rewritten, and when enabled the renderer applies exactly one
such rewrite step per configured field, in order, to the
tag-prefix-extended context. -/
theorem renderTemplate_autolink :
    (∀ (ctx : CtxVal) (f v : String),
      getNestedValue ctx f = .str v →
      jsTrim v ≠ "" →
      jsStartsWith v "[[" = false →
      jsStartsWith v "<mark" = false →
      (splitPath f).getLast? ≠ some "" →
      getNestedValue (autoLinkStep ctx f) f = .str ("[[" ++ v ++ "]]")) ∧
    (∀ (ctx : CtxVal) (f v : String),
      getNestedValue ctx f = .str v →
      jsStartsWith v "[[" = true →
      autoLinkStep ctx f = ctx) ∧
    (∀ (st : ScreviSyncSettings) (data : CtxVal),
      st.enableAutoLinking = false →
      buildContext st data = injectTagPrefix st.tagPrefix data) ∧
    (∀ (st : ScreviSyncSettings) (data : CtxVal),
      st.enableAutoLinking = true →
      buildContext st data =
        st.autoLinkFields.foldl autoLinkStep (injectTagPrefix st.tagPrefix data)) := by
  refine ⟨?_, ?_, ?_, ?_⟩
  · intro ctx f v hget htrim hs1 hs2 hlast
    have hv : v ≠ "" := by
      intro hv
      exact htrim (by rw [hv]; rfl)
    have hcond : (v != "" && jsTrim v != "" && !(jsStartsWith v "[[") &&
        !(jsStartsWith v "<mark")) = true := by
      simp [hv, htrim, hs1, hs2]
    rw [autoLinkStep, hget]
    simp only [hcond, if_true]
    exact getKeys_setKeys (splitPath f) ctx v _ (splitPath_ne_nil f) hlast hget hv
  · intro ctx f v hget hs
    rw [autoLinkStep, hget]
    simp [hs]
  · intro st data h
    simp [buildContext, h]
  · intro st data h
    simp [buildContext, h]

theorem renderTemplate_autolink_witness :
    getNestedValue
        (autoLinkStep (.obj [("author", .str "James Clear")]) "author") "author" =
      .str ("[[" ++ "James Clear" ++ "]]") :=
  renderTemplate_autolink.1 (.obj [("author", .str "James Clear")]) "author"
    "James Clear" rfl (by decide) rfl rfl (by decide)

/-- Claim C3: the template renderer fails closed — it is a total
function of the abstract Nunjucks call; a successful render is returned
as-is, and any rendering failure with message `e` yields the inline
string `"Template Error: " ++ e` (which begins with `"Template Error:"`)
instead of a thrown exception. -/
theorem renderTemplate_fails_closed
    (rs : String → CtxVal → Except String String) (st : ScreviSyncSettings)
    (template : String) (data : CtxVal) :
    (∀ out, rs template (buildContext st data) = .ok out →
      renderTemplate rs st template data = out) ∧
    (∀ e, rs template (buildContext st data) = .error e →
      renderTemplate rs st template data = "Template Error: " ++ e ∧
      ∃ rest, renderTemplate rs st template data = "Template Error:" ++ rest) := by
  constructor
  · intro out h
    rw [renderTemplate, h]
  · intro e h
    refine ⟨by rw [renderTemplate, h], " " ++ e, ?_⟩
    rw [renderTemplate, h]
    have : ("Template Error: " : String) = "Template Error:" ++ " " := rfl
    rw [this]
    apply congrArg String.mk
    simp

theorem renderTemplate_fails_closed_witness :
    renderTemplate (fun _ _ => .error "undefined filter")
        ⟨"", 2, "Screvi Highlights", true, 0, true, "screvi", ["author"], true⟩
        "{{ x | nofilter }}" (.obj []) = "Template Error: undefined filter" :=
  ((renderTemplate_fails_closed (fun _ _ => .error "undefined filter")
      ⟨"", 2, "Screvi Highlights", true, 0, true, "screvi", ["author"], true⟩
      "{{ x | nofilter }}" (.obj [])).2 "undefined filter" rfl).1

theorem fetchPagesGo_cons (pages : Nat → PageResponse) (fuel page count : Nat)
    (acc : List SourceObj) :
    fetchPagesGo pages (fuel + 1) page count acc =
      if responseHasMore (pages page) then
        fetchPagesGo pages fuel (page + 1) (count + 1) (acc ++ responseData (pages page))
      else some (count + 1, acc ++ responseData (pages page)) := rfl

theorem fetchPagesGo_spec (pages : Nat → PageResponse) :
    ∀ (fuel p c : Nat) (acc srcs : List SourceObj) (n : Nat),
    p = c + 1 →
    fetchPagesGo pages fuel p c acc = some (n, srcs) →
    c < n ∧ responseHasMore (pages n) = false ∧
      ∀ m, p ≤ m → m < n → responseHasMore (pages m) = true := by
  intro fuel
  induction fuel with
  | zero =>
      intro p c acc srcs n _ h
      exact absurd h (by simp [fetchPagesGo])
  | succ f ih =>
      intro p c acc srcs n hpc h
      rw [fetchPagesGo_cons] at h
      by_cases hm : responseHasMore (pages p) = true
      · rw [if_pos hm] at h
        obtain ⟨h1, h2, h3⟩ := ih (p + 1) (c + 1) _ srcs n (by omega) h
        refine ⟨by omega, h2, ?_⟩
        intro m hm1 hm2
        rcases Nat.eq_or_lt_of_le hm1 with rfl | hlt
        · exact hm
        · exact h3 m (by omega) hm2
      · rw [if_neg hm] at h
        simp only [Option.some.injEq, Prod.mk.injEq] at h
        refine ⟨by omega, ?_, ?_⟩
        · have hn : n = p := by omega
          rw [hn]
          simpa using hm
        · intro m hm1 hm2
          exact absurd hm2 (by omega)

/-- Claim C2: the client requests page 1, 2, … until a page reports
`hasMore = false` — a bare array (no pagination block) counts as
`hasMore = false` by definition of `responseHasMore` — and for a
two-page run (page 1 `hasMore: true`, page 2 terminal) it returns the
flattened concatenation of both pages' records having made exactly two
HTTP requests. -/
theorem fetchHighlightsSince_pagination :
    (∀ (pages : Nat → PageResponse) (fuel n : Nat) (hls : List Highlight),
      fetchHighlightsSince pages fuel = some (n, hls) →
      responseHasMore (pages n) = false ∧
        ∀ m, 1 ≤ m → m < n → responseHasMore (pages m) = true) ∧
    (∀ (pages : Nat → PageResponse) (fuel : Nat),
      2 ≤ fuel →
      responseHasMore (pages 1) = true →
      responseHasMore (pages 2) = false →
      fetchHighlightsSince pages fuel =
        some (2, flattenSources (responseData (pages 1) ++ responseData (pages 2)))) := by
  constructor
  · intro pages fuel n hls h
    rw [fetchHighlightsSince] at h
    cases hfp : fetchPagesGo pages fuel 1 0 [] with
    | none => rw [hfp] at h; exact absurd h (by simp)
    | some p =>
        obtain ⟨n', srcs⟩ := p
        rw [hfp] at h
        simp only [Option.map_some', Option.some.injEq, Prod.mk.injEq] at h
        obtain ⟨hn, _⟩ := h
        subst hn
        obtain ⟨_, h2, h3⟩ := fetchPagesGo_spec pages fuel 1 0 [] srcs n' rfl hfp
        exact ⟨h2, h3⟩
  · intro pages fuel hfuel h1 h2
    obtain ⟨f, rfl⟩ : ∃ f, fuel = f + 2 := ⟨fuel - 2, by omega⟩
    rw [fetchHighlightsSince,
      show f + 2 = (f + 1) + 1 from rfl, fetchPagesGo_cons, if_pos h1,
      fetchPagesGo_cons, if_neg (by rw [h2]; exact Bool.false_ne_true)]
    simp

theorem fetchHighlightsSince_pagination_witness :
    fetchHighlightsSince
        (fun n => if n = 1 then PageResponse.env (some []) (some true)
          else PageResponse.arr []) 5 =
      some (2, flattenSources
        (responseData ((fun n => if n = 1 then PageResponse.env (some []) (some true)
            else PageResponse.arr []) 1) ++
          responseData ((fun n => if n = 1 then PageResponse.env (some []) (some true)
            else PageResponse.arr []) 2))) :=
  fetchHighlightsSince_pagination.2
    (fun n => if n = 1 then PageResponse.env (some []) (some true)
      else PageResponse.arr []) 5 (by omega) rfl rfl

/-- Counterexample to claim C4 as stated: a sync that completes without
error but fetched zero highlights does *not* update the cursor — the
code only assigns `lastSyncTime` inside the `highlights.length > 0`
branch, so the cursor stays at its old value 7 instead of becoming the
completion time 42. -/
theorem syncHighlights_cursor_counterexample :
    (syncHighlightsModel
        ⟨⟨"key", 2, "Screvi Highlights", true, 7, true, "screvi", ["author"], true⟩,
          [], false⟩
        [] 42).1.settings.lastSyncTime = 7 ∧
    (syncHighlightsModel
        ⟨⟨"key", 2, "Screvi Highlights", true, 7, true, "screvi", ["author"], true⟩,
          [], false⟩
        [] 42).2 = "No new highlights to sync" ∧
    (7 : Nat) ≠ 42 :=
  ⟨rfl, rfl, by omega⟩

/-- Claim C4 (amended): at the end of every sync that completes without
error *and fetched at least one highlight*, the persisted cursor equals
the wall-clock time `now` observed at completion, regardless of the
fetched highlights' own timestamps. -/
theorem syncHighlights_cursor_now (st : PluginState) (fetched : List Highlight)
    (now : Nat) (hkey : st.settings.apiKey ≠ "") (hsync : st.isSyncing = false)
    (hne : 0 < fetched.length) :
    (syncHighlightsModel st fetched now).1.settings.lastSyncTime = now := by
  rw [syncHighlightsModel, if_neg hkey, if_neg (by simp [hsync]), if_pos hne]

theorem syncHighlights_cursor_now_witness :
    (syncHighlightsModel
        ⟨⟨"key", 2, "Screvi Highlights", true, 7, true, "screvi", ["author"], true⟩,
          [], false⟩
        [⟨none, "text", none, none, none, "t", none, none, "", none, none, none,
          none, none, none, none, none, none⟩]
        42).1.settings.lastSyncTime = 42 :=
  syncHighlights_cursor_now _ _ 42 (by decide) rfl (by decide)

/-- Counterexample to claim C7 as stated: a resolved value that is a
non-empty but whitespace-only string (here a single space) is *not*
rewritten to `[[ ]]` — the `value.trim()` check in `renderTemplate`
(`src/main.ts` line 469) skips it, although it is non-empty and starts
with neither `[[` nor `<mark`. -/
theorem renderTemplate_autolink_counterexample :
    getNestedValue
        (buildContext
          ⟨"", 2, "Screvi Highlights", true, 0, true, "screvi", ["author"], true⟩
          (.obj [("author", .str " ")]))
        "author" = .str " " ∧
    (" " : String) ≠ "" ∧
    jsStartsWith " " "[[" = false ∧
    jsStartsWith " " "<mark" = false :=
  ⟨rfl, by decide, rfl, rfl⟩

/-- Counterexample to claim C9 as stated: the year is substituted
unpadded (`String(year)` — year 5 renders as `"5"`, not zero-padded),
and only the first occurrence of a token is replaced (the second `MM`
in `"MM MM"` survives), because `formatDate` uses JavaScript
string-pattern `replace`. -/
theorem dateFilter_counterexample :
    dateFilter (fun _ => some ⟨5, 3, 7⟩) "2024" "YYYY-MM-DD" = "5-03-07" ∧
    dateFilter (fun _ => some ⟨2024, 3, 7⟩) "2024" "MM MM" = "03 MM" :=
  ⟨rfl, rfl⟩
